import Mathlib

/-!
A verification development for a small polyphonic synthesizer written in Rust
(`src/main.rs`).  The program keeps one voice (`Note`) per MIDI pitch in a
fixed array of 128 slots; each voice carries an ADSR envelope state machine,
an elapsed-samples counter driving a sine oscillator, and an optional
scheduled note-on start frame.  Incoming 3-byte MIDI events are decoded by
`Synthesizer::handle_midi`; `Synthesizer::get_audio_data` renders one output
frame by summing the contributions of all non-idle voices and advancing their
state.

Modelling conventions for the shallow embedding:
* Rust `f32` values are embedded as `ℚ`.  All envelope arithmetic in the
  source is exact linear interpolation, so the rational model captures it.
* The oscillator factor `(frequency * time_step * time * 2π).sin()` is
  transcendental; it is embedded as `sine (frequency * time_step * time)`
  for an arbitrary function `sine : ℚ → ℚ` standing for `x ↦ sin (2π x)`.
  All claims below hold for every such `sine`.
* `usize`/`u8` counters are embedded as `Nat` (no overflow is reachable in
  the claims' scope).
* The fixed array `[Note; 128]` is embedded as `Fin 128 → Note`; the Rust
  indexing `self.notes[pitch]` with a `u8` pitch can panic when
  `pitch ≥ 128`, so the event-handling functions return `Option`, `none`
  standing for the panic.  Likewise `raw_midi.bytes[i]` panics on a short
  message, embedded via `List.getElem?`.
-/

/-- `const ATTACK: usize = 2000`. -/
def ATTACK : Nat := 2000

/-- `const DECAY: usize = 2000`. -/
def DECAY : Nat := 2000

/-- `const SUSTAIN: f32 = 0.6`. -/
def SUSTAIN : ℚ := 3 / 5

/-- `const RELEASE: usize = 5000`. -/
def RELEASE : Nat := 5000

/-- `const MAX_AMPLITUDE: f32 = 0.5`. -/
def MAX_AMPLITUDE : ℚ := 1 / 2

/-- The Rust `enum EnvelopeStage` with its per-variant payloads. -/
inductive EnvelopeStage where
  | Attack (phase_timer : Nat) (amplitude_start amplitude_end : ℚ)
  | Decay (phase_timer : Nat) (amplitude_start amplitude_end : ℚ)
  | Sustain (amplitude : ℚ)
  | Release (phase_timer : Nat) (amplitude_start : ℚ)
  | Off
deriving DecidableEq, Repr

/-- The Rust `struct Note`: one voice of the synthesizer. -/
structure Note where
  frequency : ℚ
  velocity : Nat
  time : Nat
  envelope_stage : EnvelopeStage
  next_start_frame : Option Nat
deriving DecidableEq, Repr

/-- `Note::new`. -/
def Note.new (frequency : ℚ) : Note :=
  { frequency := frequency
    velocity := 0
    time := 0
    envelope_stage := EnvelopeStage.Off
    next_start_frame := none }

/-- `Note::fractional_velocity`: `self.velocity as f32 / 127.0`. -/
def Note.fractional_velocity (n : Note) : ℚ :=
  (n.velocity : ℚ) / 127

/-- `Note::amplitude`: the pure per-stage amplitude read. -/
def Note.amplitude (n : Note) : ℚ :=
  match n.envelope_stage with
  | EnvelopeStage.Attack t s e => s + (e - s) * (t : ℚ) / (ATTACK : ℚ)
  | EnvelopeStage.Decay t s e => s - (s - e) * (t : ℚ) / (DECAY : ℚ)
  | EnvelopeStage.Sustain a => a
  | EnvelopeStage.Release t s => s - s * (t : ℚ) / (RELEASE : ℚ)
  | EnvelopeStage.Off => 0

/-- `Note::increment_time(frame)`: increments `time`, then activates a
pending scheduled start whose frame has arrived (capturing the current
amplitude as the new attack's start), then advances the envelope stage.
The final `match` runs on the possibly freshly-activated stage, exactly as
in the source where `self.envelope_stage` is re-read after the `if let`. -/
def Note.increment_time (n : Note) (frame : Nat) : Note :=
  let n1 : Note := { n with time := n.time + 1 }
  let n2 : Note :=
    match n1.next_start_frame with
    | some start_frame =>
        if start_frame = frame then
          { n1 with
              next_start_frame := none
              envelope_stage :=
                EnvelopeStage.Attack 0 n1.amplitude n1.fractional_velocity }
        else n1
    | none => n1
  match n2.envelope_stage with
  | EnvelopeStage.Attack t s e =>
      if t = ATTACK then
        { n2 with
            envelope_stage :=
              EnvelopeStage.Decay 0 n2.fractional_velocity
                (n2.fractional_velocity * SUSTAIN) }
      else { n2 with envelope_stage := EnvelopeStage.Attack (t + 1) s e }
  | EnvelopeStage.Decay t s e =>
      if t = DECAY then
        { n2 with
            envelope_stage :=
              EnvelopeStage.Sustain (n2.fractional_velocity * SUSTAIN) }
      else { n2 with envelope_stage := EnvelopeStage.Decay (t + 1) s e }
  | EnvelopeStage.Release t s =>
      if t = RELEASE then
        { n2 with envelope_stage := EnvelopeStage.Off }
      else { n2 with envelope_stage := EnvelopeStage.Release (t + 1) s }
  | _ => n2

/-- `Note::release`: force the envelope into `Release` from the current
amplitude. -/
def Note.release (n : Note) : Note :=
  { n with envelope_stage := EnvelopeStage.Release 0 n.amplitude }

/-- One voice's treatment inside the frame loop of
`Synthesizer::get_audio_data`: an idle voice (`Off` with no pending start)
is skipped (`continue`), any other voice contributes
`MAX_AMPLITUDE * amplitude * sin(frequency * time_step * time * 2π)` and
then runs `increment_time(frame)`.  Returns (contribution, updated voice). -/
def Note.step (n : Note) (sine : ℚ → ℚ) (time_step : ℚ) (frame : Nat) :
    ℚ × Note :=
  if n.envelope_stage = EnvelopeStage.Off ∧ n.next_start_frame = none then
    (0, n)
  else
    (MAX_AMPLITUDE * n.amplitude * sine (n.frequency * time_step * (n.time : ℚ)),
      n.increment_time frame)

/-- The voice after being carried through the render loop for frames
`0, 1, …, k-1` (each frame applies `Note.step`). -/
def Note.run (n : Note) (sine : ℚ → ℚ) (time_step : ℚ) : Nat → Note
  | 0 => n
  | k + 1 => ((Note.run n sine time_step k).step sine time_step k).2

/-- The voice's contribution to output frame `k` when carried through the
render loop from frame 0. -/
def Note.out (n : Note) (sine : ℚ → ℚ) (time_step : ℚ) (k : Nat) : ℚ :=
  ((Note.run n sine time_step k).step sine time_step k).1

/-- The Rust `struct Synthesizer`: the fixed 128-slot voice pool plus the
sample period. -/
structure Synthesizer where
  time_step : ℚ
  notes : Fin 128 → Note

/-- `Synthesizer::new`: all voices start `Off` with the given frequencies. -/
def Synthesizer.new (sample_rate : Nat) (frequencies : Fin 128 → ℚ) :
    Synthesizer :=
  { time_step := 1 / (sample_rate : ℚ)
    notes := fun i => { Note.new 0 with frequency := frequencies i } }

/-- The in-bounds part of `Synthesizer::note_on`: store velocity and the
pending start frame in slot `p`. -/
def Synthesizer.setNoteOn (s : Synthesizer) (p : Fin 128)
    (velocity start_time : Nat) : Synthesizer :=
  { s with
      notes := Function.update s.notes p
        { s.notes p with
            velocity := velocity
            next_start_frame := some start_time } }

/-- `Synthesizer::note_on(pitch, velocity, start_time)`.  The Rust code
indexes `self.notes[pitch as usize]` with no range check; for
`pitch ≥ 128` the access is out of bounds (a panic), embedded as `none`. -/
def Synthesizer.note_on (s : Synthesizer) (pitch velocity start_time : Nat) :
    Option Synthesizer :=
  if h : pitch < 128 then some (s.setNoteOn ⟨pitch, h⟩ velocity start_time)
  else none

/-- The in-bounds part of `Synthesizer::note_off`: release slot `p`. -/
def Synthesizer.setNoteOff (s : Synthesizer) (p : Fin 128) : Synthesizer :=
  { s with notes := Function.update s.notes p ((s.notes p).release) }

/-- `Synthesizer::note_off(pitch)`: same unchecked indexing as `note_on`. -/
def Synthesizer.note_off (s : Synthesizer) (pitch : Nat) :
    Option Synthesizer :=
  if h : pitch < 128 then some (s.setNoteOff ⟨pitch, h⟩)
  else none

/-- A raw MIDI event as the JACK callback hands it over: raw bytes plus the
intra-block frame offset (`raw_midi.time`). -/
structure RawMidi where
  bytes : List Nat
  time : Nat

/-- `Synthesizer::handle_midi`: reads `bytes[0]`, `bytes[1]`, `bytes[2]`
unconditionally (out-of-bounds on a short message, embedded as `none`),
then dispatches on the status high nibble: `0b1000` note-off, `0b1001`
note-on, anything else ignored. -/
def Synthesizer.handle_midi (s : Synthesizer) (raw : RawMidi) :
    Option Synthesizer := do
  let status ← raw.bytes[0]?
  let pitch ← raw.bytes[1]?
  let velocity ← raw.bytes[2]?
  let start_time := raw.time
  if status / 16 = 8 then s.note_off pitch
  else if status / 16 = 9 then s.note_on pitch velocity start_time
  else some s

/-- `Synthesizer::get_audio_data(frame)`: every voice is stepped
(idle voices contribute 0 and stay untouched) and the contributions are
summed into the frame's output value. -/
def Synthesizer.get_audio_data (s : Synthesizer) (sine : ℚ → ℚ)
    (frame : Nat) : ℚ × Synthesizer :=
  (Finset.univ.sum (fun i : Fin 128 => ((s.notes i).step sine s.time_step frame).1),
    { s with notes := fun i => ((s.notes i).step sine s.time_step frame).2 })

/-- The synthesizer state after rendering frames `0, …, k-1` of a block. -/
def Synthesizer.stateAfter (s : Synthesizer) (sine : ℚ → ℚ) : Nat → Synthesizer
  | 0 => s
  | k + 1 => ((s.stateAfter sine k).get_audio_data sine k).2

/-- The block's output sample at frame `k`. -/
def Synthesizer.outputAt (s : Synthesizer) (sine : ℚ → ℚ) (k : Nat) : ℚ :=
  ((s.stateAfter sine k).get_audio_data sine k).1

/-! ## Basic facts about the embedded operations -/

theorem amplitude_time_update (n : Note) (t : Nat) :
    Note.amplitude { n with time := t } = n.amplitude := rfl

theorem fractional_velocity_time_update (n : Note) (t : Nat) :
    Note.fractional_velocity { n with time := t } = n.fractional_velocity := rfl

/-- When a scheduled start frame arrives, `increment_time` bumps the counter,
clears the pending flag, seeds a new attack from the current amplitude, and
the envelope advance in the same call moves the fresh attack to phase 1. -/
theorem increment_time_activate (n : Note) (f : Nat)
    (h : n.next_start_frame = some f) :
    n.increment_time f =
      { n with
          time := n.time + 1
          next_start_frame := none
          envelope_stage :=
            EnvelopeStage.Attack 1 n.amplitude n.fractional_velocity } := by
  obtain ⟨freq, vel, t, stage, next⟩ := n
  simp only [Note.next_start_frame] at h
  subst h
  simp [Note.increment_time, Note.amplitude, Note.fractional_velocity, ATTACK]

/-- A voice in `Release` before the last release sample just advances the
release phase timer. -/
theorem increment_time_release (n : Note) (frame t : Nat) (s : ℚ)
    (hn : n.next_start_frame = none)
    (hs : n.envelope_stage = EnvelopeStage.Release t s) (ht : t ≠ RELEASE) :
    n.increment_time frame =
      { n with
          time := n.time + 1
          envelope_stage := EnvelopeStage.Release (t + 1) s } := by
  obtain ⟨freq, vel, t0, stage, next⟩ := n
  simp only [Note.next_start_frame] at hn
  simp only [Note.envelope_stage] at hs
  subst hn; subst hs
  simp [Note.increment_time, ht]

/-- A voice in `Release` at phase `RELEASE` switches to `Off`. -/
theorem increment_time_release_end (n : Note) (frame : Nat) (s : ℚ)
    (hn : n.next_start_frame = none)
    (hs : n.envelope_stage = EnvelopeStage.Release RELEASE s) :
    n.increment_time frame =
      { n with
          time := n.time + 1
          envelope_stage := EnvelopeStage.Off } := by
  obtain ⟨freq, vel, t0, stage, next⟩ := n
  simp only [Note.next_start_frame] at hn
  simp only [Note.envelope_stage] at hs
  subst hn; subst hs
  simp [Note.increment_time]

/-- An idle voice is skipped: zero contribution, state untouched. -/
theorem step_idle (n : Note) (sine : ℚ → ℚ) (ts : ℚ) (frame : Nat)
    (hoff : n.envelope_stage = EnvelopeStage.Off)
    (hns : n.next_start_frame = none) :
    n.step sine ts frame = (0, n) := by
  simp [Note.step, hoff, hns]

/-- A non-idle voice contributes the oscillator value and advances. -/
theorem step_active (n : Note) (sine : ℚ → ℚ) (ts : ℚ) (frame : Nat)
    (h : ¬(n.envelope_stage = EnvelopeStage.Off ∧ n.next_start_frame = none)) :
    n.step sine ts frame =
      (MAX_AMPLITUDE * n.amplitude * sine (n.frequency * ts * (n.time : ℚ)),
        n.increment_time frame) := by
  simp [Note.step, h]

/-! ## C1: retriggering a sounding voice seeds the attack from the current
amplitude -/

/-- C1: if a voice's envelope stage is not `Off` at the instant its scheduled
note-on activates, the new `Attack` stage's starting amplitude equals the
voice's amplitude at that instant (`Note::increment_time` captures
`self.amplitude()` before overwriting the stage), so the retriggered attack
ramps from the current amplitude rather than from 0. -/
theorem retrigger_attack_starts_at_current_amplitude
    (n : Note) (f : Nat)
    (h1 : n.envelope_stage ≠ EnvelopeStage.Off)
    (h2 : n.next_start_frame = some f) :
    (n.increment_time f).envelope_stage =
      EnvelopeStage.Attack 1 n.amplitude n.fractional_velocity := by
  rw [increment_time_activate n f h2]

def c1note : Note :=
  { frequency := 1
    velocity := 127
    time := 3
    envelope_stage := EnvelopeStage.Sustain (1 / 2)
    next_start_frame := some 7 }

theorem retrigger_attack_starts_at_current_amplitude_witness :
    (c1note.increment_time 7).envelope_stage =
      EnvelopeStage.Attack 1 c1note.amplitude c1note.fractional_velocity :=
  retrigger_attack_starts_at_current_amplitude c1note 7 (by decide) rfl

/-! ## C2: pending and idle voices -/

theorem amplitude_off (n : Note) (h : n.envelope_stage = EnvelopeStage.Off) :
    n.amplitude = 0 := by
  simp [Note.amplitude, h]

/-- An `Off` voice with a pending start whose frame has not arrived keeps its
stage and pending flag, but its `time` counter is still incremented. -/
theorem increment_time_pending_off (n : Note) (frame s : Nat)
    (hoff : n.envelope_stage = EnvelopeStage.Off)
    (hp : n.next_start_frame = some s) (hne : s ≠ frame) :
    n.increment_time frame = { n with time := n.time + 1 } := by
  obtain ⟨freq, vel, t0, stage, next⟩ := n
  simp only [Note.next_start_frame] at hp
  simp only [Note.envelope_stage] at hoff
  subst hp; subst hoff
  simp [Note.increment_time, hne]

def sineZero : ℚ → ℚ := fun _ => 0

def c2note : Note :=
  { frequency := 1
    velocity := 100
    time := 0
    envelope_stage := EnvelopeStage.Off
    next_start_frame := some 5 }

/-- C2 counterexample: the voice `c2note` is in stage `Off` with a pending
start at frame 5, so at output frame 0 it is "still pending"; the claim says
rendering the frame leaves its elapsed-samples counter unchanged, but the
render step increments it from 0 to 1. -/
theorem pending_voice_time_advances_counterexample :
    c2note.envelope_stage = EnvelopeStage.Off ∧
    c2note.next_start_frame = some 5 ∧ (5 : Nat) ≠ 0 ∧
    (c2note.step sineZero 1 0).2.time ≠ c2note.time := by
  refine ⟨rfl, rfl, by decide, ?_⟩
  rw [step_active c2note sineZero 1 0 (by decide),
    increment_time_pending_off c2note 0 5 rfl rfl (by decide)]
  decide

/-- C2 (amended): at every output frame, a voice in stage `Off` whose pending
start frame has not yet arrived contributes exactly 0 and keeps its stage and
pending flag, but its elapsed-samples counter is incremented; an idle voice
(`Off`, no pending start) contributes exactly 0 and is left entirely
unchanged. -/
theorem pending_and_idle_voice_frame_effect
    (sine : ℚ → ℚ) (ts : ℚ) (n m : Note) (frame s : Nat)
    (hoff : n.envelope_stage = EnvelopeStage.Off)
    (hp : n.next_start_frame = some s) (hne : s ≠ frame)
    (hmoff : m.envelope_stage = EnvelopeStage.Off)
    (hmns : m.next_start_frame = none) :
    (n.step sine ts frame).1 = 0 ∧
    (n.step sine ts frame).2.envelope_stage = EnvelopeStage.Off ∧
    (n.step sine ts frame).2.next_start_frame = some s ∧
    (n.step sine ts frame).2.time = n.time + 1 ∧
    m.step sine ts frame = (0, m) := by
  rw [step_active n sine ts frame (by simp [hp]),
    increment_time_pending_off n frame s hoff hp hne,
    step_idle m sine ts frame hmoff hmns]
  refine ⟨?_, hoff, hp, rfl, rfl⟩
  rw [amplitude_off n hoff]
  ring

theorem pending_and_idle_voice_frame_effect_witness :
    (c2note.step sineZero 1 0).1 = 0 ∧
    (c2note.step sineZero 1 0).2.envelope_stage = EnvelopeStage.Off ∧
    (c2note.step sineZero 1 0).2.next_start_frame = some 5 ∧
    (c2note.step sineZero 1 0).2.time = c2note.time + 1 ∧
    (Note.new 0).step sineZero 1 0 = (0, Note.new 0) :=
  pending_and_idle_voice_frame_effect sineZero 1 c2note (Note.new 0) 0 5
    rfl rfl (by decide) rfl rfl

/-! ## C3: the `time` counter at a scheduled start -/

def c3note : Note :=
  { frequency := 0
    velocity := 127
    time := 1000
    envelope_stage := EnvelopeStage.Release 0 (1 / 2)
    next_start_frame := some 0 }

/-- C3 counterexample: the voice `c3note` has a pending start at frame 0 and
`time = 1000`; when the scheduled note-on activates (the stage does become
`Attack`), the `time` field is 1001, not 0 — the counter is never reset. -/
theorem scheduled_start_resets_time_counterexample :
    c3note.next_start_frame = some 0 ∧
    (c3note.increment_time 0).envelope_stage =
      EnvelopeStage.Attack 1 (1 / 2) 1 ∧
    (c3note.increment_time 0).time = 1001 ∧ (1001 : Nat) ≠ 0 := by
  rw [increment_time_activate c3note 0 rfl]
  refine ⟨rfl, ?_, rfl, by decide⟩
  show EnvelopeStage.Attack 1 c3note.amplitude c3note.fractional_velocity =
    EnvelopeStage.Attack 1 (1 / 2) 1
  norm_num [c3note, Note.amplitude, Note.fractional_velocity]

/-- C3 (amended): when a scheduled note-on activates, the voice transitions
into `Attack` (seeded from the current amplitude, advanced to phase 1 within
the same call) and the pending flag is cleared, but the elapsed-samples
counter `time` is not reset to 0: it is incremented by one, continuing from
its prior value. -/
theorem scheduled_start_keeps_time_counter
    (n : Note) (f : Nat) (h : n.next_start_frame = some f) :
    (n.increment_time f).time = n.time + 1 ∧
    (n.increment_time f).envelope_stage =
      EnvelopeStage.Attack 1 n.amplitude n.fractional_velocity ∧
    (n.increment_time f).next_start_frame = none := by
  rw [increment_time_activate n f h]
  exact ⟨rfl, rfl, rfl⟩

theorem scheduled_start_keeps_time_counter_witness :
    (c3note.increment_time 0).time = c3note.time + 1 ∧
    (c3note.increment_time 0).envelope_stage =
      EnvelopeStage.Attack 1 c3note.amplitude c3note.fractional_velocity ∧
    (c3note.increment_time 0).next_start_frame = none :=
  scheduled_start_keeps_time_counter c3note 0 rfl

/-! ## C4: the release trajectory after a note-off -/

theorem amplitude_release (n : Note) (t : Nat) (a : ℚ)
    (hs : n.envelope_stage = EnvelopeStage.Release t a) :
    n.amplitude = a - a * (t : ℚ) / (RELEASE : ℚ) := by
  simp [Note.amplitude, hs]

/-- Unfolding equation for `Note.run` at a successor step. -/
theorem run_succ (n : Note) (sine : ℚ → ℚ) (ts : ℚ) (k : Nat) :
    n.run sine ts (k + 1) = ((n.run sine ts k).step sine ts k).2 := rfl

/-- Carrying a voice that has just entered `Release` through the render loop:
for the first `RELEASE` steps the stage stays `Release` with the phase timer
tracking the step count, the pending flag stays clear, and `time` advances by
one per step. -/
theorem release_run (sine : ℚ → ℚ) (ts : ℚ) (n : Note) (a : ℚ)
    (hs : n.envelope_stage = EnvelopeStage.Release 0 a)
    (hn : n.next_start_frame = none) :
    ∀ k, k ≤ RELEASE →
      (n.run sine ts k).envelope_stage = EnvelopeStage.Release k a ∧
      (n.run sine ts k).next_start_frame = none ∧
      (n.run sine ts k).time = n.time + k := by
  intro k
  induction k with
  | zero => exact fun _ => ⟨hs, hn, rfl⟩
  | succ k ih =>
      intro hk
      have hk' : k ≤ RELEASE := Nat.le_of_succ_le hk
      have hkne : k ≠ RELEASE := by omega
      obtain ⟨h1, h2, h3⟩ := ih hk'
      have hrun : n.run sine ts (k + 1) =
          { n.run sine ts k with
              time := (n.run sine ts k).time + 1
              envelope_stage := EnvelopeStage.Release (k + 1) a } := by
        show ((n.run sine ts k).step sine ts k).2 = _
        rw [step_active _ sine ts k (by simp [h1])]
        exact increment_time_release _ k k a h2 h1 hkne
      rw [hrun]
      exact ⟨rfl, h2, by simp [h3]; omega⟩

def c4note : Note :=
  { frequency := 2
    velocity := 127
    time := 40
    envelope_stage := EnvelopeStage.Sustain (3 / 5)
    next_start_frame := none }

/-- C4: after `note_off`, the voice enters `Release` starting from its
amplitude at call time; carried through the render loop its amplitude follows
the linear ramp `a * (RELEASE - k) / RELEASE`, stays strictly positive before
step `RELEASE`, is exactly 0 at step `RELEASE` (while the stage, read before
that sample's advance, is still not `Off`; the advance of that very sample
switches it to `Off`), and every per-sample decrease is exactly the single
ramp step `a / RELEASE`. -/
theorem note_off_release_trajectory
    (sine : ℚ → ℚ) (ts : ℚ) (m : Note)
    (hns : m.next_start_frame = none) (ha : 0 < m.amplitude) :
    m.release.envelope_stage = EnvelopeStage.Release 0 m.amplitude ∧
    (∀ k, k ≤ RELEASE → (m.release.run sine ts k).amplitude
        = m.amplitude * ((RELEASE : ℚ) - (k : ℚ)) / (RELEASE : ℚ)) ∧
    (∀ k, k < RELEASE → 0 < (m.release.run sine ts k).amplitude) ∧
    (∀ k, k ≤ RELEASE →
      (m.release.run sine ts k).envelope_stage ≠ EnvelopeStage.Off) ∧
    (m.release.run sine ts RELEASE).amplitude = 0 ∧
    (m.release.run sine ts (RELEASE + 1)).envelope_stage =
      EnvelopeStage.Off ∧
    (∀ k, k < RELEASE →
      (m.release.run sine ts k).amplitude
          - (m.release.run sine ts (k + 1)).amplitude
        = m.amplitude / (RELEASE : ℚ)) := by
  have hRne : ((RELEASE : Nat) : ℚ) ≠ 0 := by norm_num [RELEASE]
  have hnr : m.release.next_start_frame = none := hns
  have key := release_run sine ts m.release m.amplitude rfl hnr
  have hamp : ∀ k, k ≤ RELEASE → (m.release.run sine ts k).amplitude
      = m.amplitude * ((RELEASE : ℚ) - (k : ℚ)) / (RELEASE : ℚ) := by
    intro k hk
    rw [amplitude_release _ k m.amplitude (key k hk).1]
    field_simp
    ring
  refine ⟨rfl, hamp, ?_, ?_, ?_, ?_, ?_⟩
  · intro k hk
    rw [hamp k (Nat.le_of_lt hk)]
    have hkR : (k : ℚ) < (RELEASE : ℚ) := by exact_mod_cast hk
    have hRpos : (0 : ℚ) < (RELEASE : ℚ) := by norm_num [RELEASE]
    exact div_pos (mul_pos ha (by linarith)) hRpos
  · intro k hk
    rw [(key k hk).1]
    simp
  · rw [hamp RELEASE le_rfl]
    ring
  · obtain ⟨h1, h2, _⟩ := key RELEASE le_rfl
    rw [run_succ, step_active _ sine ts RELEASE (by simp [h1]),
      increment_time_release_end _ RELEASE m.amplitude h2 h1]
  · intro k hk
    rw [hamp k (Nat.le_of_lt hk), hamp (k + 1) hk]
    have hcast : ((k + 1 : Nat) : ℚ) = (k : ℚ) + 1 := by push_cast; ring
    rw [hcast]
    field_simp
    ring

theorem note_off_release_trajectory_witness :
    c4note.release.envelope_stage =
      EnvelopeStage.Release 0 c4note.amplitude ∧
    (c4note.release.run sineZero 1 RELEASE).amplitude = 0 ∧
    (c4note.release.run sineZero 1 (RELEASE + 1)).envelope_stage =
      EnvelopeStage.Off ∧
    (c4note.release.run sineZero 1 0).amplitude
        - (c4note.release.run sineZero 1 1).amplitude
      = c4note.amplitude / (RELEASE : ℚ) := by
  have h := note_off_release_trajectory sineZero 1 c4note rfl
    (by norm_num [Note.amplitude, c4note])
  exact ⟨h.1, h.2.2.2.2.1, h.2.2.2.2.2.1, h.2.2.2.2.2.2 0 (by norm_num [RELEASE])⟩

/-! ## Rendering a block: per-voice decomposition -/

theorem get_audio_data_fst (s : Synthesizer) (sine : ℚ → ℚ) (frame : Nat) :
    (s.get_audio_data sine frame).1
      = Finset.univ.sum
          (fun i : Fin 128 => ((s.notes i).step sine s.time_step frame).1) := rfl

theorem stateAfter_succ (s : Synthesizer) (sine : ℚ → ℚ) (k : Nat) :
    s.stateAfter sine (k + 1)
      = ((s.stateAfter sine k).get_audio_data sine k).2 := rfl

theorem stateAfter_time_step (s : Synthesizer) (sine : ℚ → ℚ) :
    ∀ k, (s.stateAfter sine k).time_step = s.time_step := by
  intro k
  induction k with
  | zero => rfl
  | succ k ih => rw [stateAfter_succ]; exact ih

/-- The render loop acts on each voice slot independently: after `k` frames,
slot `i` holds exactly the voice obtained by carrying the initial slot-`i`
voice through `k` steps on its own. -/
theorem stateAfter_notes (s : Synthesizer) (sine : ℚ → ℚ) :
    ∀ (k : Nat) (i : Fin 128),
      (s.stateAfter sine k).notes i = (s.notes i).run sine s.time_step k := by
  intro k
  induction k with
  | zero => intro i; rfl
  | succ k ih =>
      intro i
      rw [stateAfter_succ, run_succ]
      show (((s.stateAfter sine k).notes i).step sine
        (s.stateAfter sine k).time_step k).2 = _
      rw [ih i, stateAfter_time_step]

/-- The block's output at frame `k` is the sum over all 128 slots of the
per-voice contribution at frame `k`. -/
theorem outputAt_eq_sum (s : Synthesizer) (sine : ℚ → ℚ) (k : Nat) :
    s.outputAt sine k
      = Finset.univ.sum
          (fun i : Fin 128 => (s.notes i).out sine s.time_step k) := by
  show ((s.stateAfter sine k).get_audio_data sine k).1 = _
  rw [get_audio_data_fst]
  refine Finset.sum_congr rfl fun i _ => ?_
  rw [stateAfter_notes s sine k i, stateAfter_time_step s sine k]
  rfl

/-- An idle voice is left untouched by any number of render steps. -/
theorem run_idle (n : Note) (sine : ℚ → ℚ) (ts : ℚ)
    (hoff : n.envelope_stage = EnvelopeStage.Off)
    (hns : n.next_start_frame = none) :
    ∀ k, n.run sine ts k = n := by
  intro k
  induction k with
  | zero => rfl
  | succ k ih => rw [run_succ, ih, step_idle n sine ts k hoff hns]

/-- An idle voice contributes 0 at every frame. -/
theorem out_idle (n : Note) (sine : ℚ → ℚ) (ts : ℚ)
    (hoff : n.envelope_stage = EnvelopeStage.Off)
    (hns : n.next_start_frame = none) (k : Nat) :
    n.out sine ts k = 0 := by
  show ((n.run sine ts k).step sine ts k).1 = 0
  rw [run_idle n sine ts hoff hns k, step_idle n sine ts k hoff hns]

theorem setNoteOn_time_step (s : Synthesizer) (p : Fin 128) (v t : Nat) :
    (s.setNoteOn p v t).time_step = s.time_step := rfl

theorem setNoteOn_notes_apply (s : Synthesizer) (p : Fin 128) (v t : Nat)
    (i : Fin 128) :
    (s.setNoteOn p v t).notes i =
      if i = p then
        { s.notes p with velocity := v, next_start_frame := some t }
      else s.notes i :=
  Function.update_apply s.notes p _ i

/-! ## C7: superposition of two simultaneous note-ons -/

/-- C7: starting from a pool in which every voice is idle, the block produced
after note-ons on two distinct pitches `p ≠ q` equals, at every frame, the
sample-wise sum of the blocks produced by each note-on alone from the same
initial state: distinct voices evolve independently and their contributions
add, while idle voices contribute 0. -/
theorem simultaneous_note_ons_superpose
    (sine : ℚ → ℚ) (s : Synthesizer) (p q : Fin 128) (hpq : p ≠ q)
    (vp vq tp tq : Nat)
    (hidle : ∀ i, (s.notes i).envelope_stage = EnvelopeStage.Off ∧
      (s.notes i).next_start_frame = none)
    (k : Nat) :
    ((s.setNoteOn p vp tp).setNoteOn q vq tq).outputAt sine k
      = (s.setNoteOn p vp tp).outputAt sine k
        + (s.setNoteOn q vq tq).outputAt sine k := by
  have hqp : q ≠ p := Ne.symm hpq
  rw [outputAt_eq_sum, outputAt_eq_sum, outputAt_eq_sum,
    ← Finset.sum_add_distrib]
  refine Finset.sum_congr rfl fun i _ => ?_
  rw [setNoteOn_time_step, setNoteOn_time_step, setNoteOn_time_step]
  have hout := out_idle (s.notes i) sine s.time_step (hidle i).1 (hidle i).2 k
  rcases eq_or_ne i q with hiq | hiq
  · subst hiq
    simp [Synthesizer.setNoteOn, Function.update_apply, hqp, hout]
  · rcases eq_or_ne i p with hip | hip
    · subst hip
      simp [Synthesizer.setNoteOn, Function.update_apply, hiq, hout]
    · simp [Synthesizer.setNoteOn, Function.update_apply, hiq, hip, hout]

def w7synth : Synthesizer := Synthesizer.new 48000 (fun _ => 440)

theorem simultaneous_note_ons_superpose_witness :
    ((w7synth.setNoteOn 0 100 0).setNoteOn 1 99 0).outputAt sineZero 1
      = (w7synth.setNoteOn 0 100 0).outputAt sineZero 1
        + (w7synth.setNoteOn 1 99 0).outputAt sineZero 1 :=
  simultaneous_note_ons_superpose sineZero w7synth 0 1 (by decide) 100 99 0 0
    (fun _ => ⟨rfl, rfl⟩) 1

/-! ## C5: a scheduled start takes audible effect at its own frame -/

/-- C5: when a voice's pending start frame `f` is reached, the note-on is in
effect for frame `f`'s own output: the contribution computed at frame `f`
equals exactly the contribution of the activated voice (the fresh
`Attack(0, amplitude, velocity_fraction)` reads back the very same
amplitude), the pending flag is cleared and the stage is in `Attack` once
the frame is rendered; in particular a voice scheduled from `Off` (e.g. a
note-on at offset 0) contributes 0 at its start frame — the attack ramp
begins at that sample with value 0 — and a whole pool of previously idle
voices with one note-on at offset 0 produces output sample 0 equal to 0. -/
theorem scheduled_start_effective_at_frame
    (sine : ℚ → ℚ) (ts : ℚ) (n : Note) (f : Nat)
    (h : n.next_start_frame = some f) :
    (n.step sine ts f).1 =
      MAX_AMPLITUDE *
        Note.amplitude { n with
          envelope_stage :=
            EnvelopeStage.Attack 0 n.amplitude n.fractional_velocity
          next_start_frame := none } *
        sine (n.frequency * ts * (n.time : ℚ)) ∧
    (n.step sine ts f).2.next_start_frame = none ∧
    (n.step sine ts f).2.envelope_stage =
      EnvelopeStage.Attack 1 n.amplitude n.fractional_velocity ∧
    (n.envelope_stage = EnvelopeStage.Off → (n.step sine ts f).1 = 0) ∧
    (∀ (s : Synthesizer) (p : Fin 128) (v : Nat),
      (∀ i, (s.notes i).envelope_stage = EnvelopeStage.Off ∧
        (s.notes i).next_start_frame = none) →
      (s.setNoteOn p v 0).outputAt sine 0 = 0) := by
  have hact : ¬(n.envelope_stage = EnvelopeStage.Off ∧
      n.next_start_frame = none) := by simp [h]
  rw [step_active n sine ts f hact, increment_time_activate n f h]
  refine ⟨?_, rfl, rfl, ?_, ?_⟩
  · have hamp : Note.amplitude { n with
        envelope_stage :=
          EnvelopeStage.Attack 0 n.amplitude n.fractional_velocity
        next_start_frame := none } = n.amplitude := by
      simp [Note.amplitude]
    rw [hamp]
  · intro hoff
    rw [amplitude_off n hoff]
    ring
  · intro s p v hidle
    rw [outputAt_eq_sum]
    refine Finset.sum_eq_zero fun i _ => ?_
    rw [setNoteOn_time_step]
    rcases eq_or_ne i p with hip | hip
    · subst hip
      show (((s.setNoteOn i v 0).notes i).step sine s.time_step 0).1 = 0
      rw [setNoteOn_notes_apply, if_pos rfl]
      rw [step_active _ sine s.time_step 0 (by simp)]
      have hampz : Note.amplitude
          { s.notes i with velocity := v, next_start_frame := some 0 } = 0 :=
        amplitude_off _ (hidle i).1
      rw [hampz]
      ring
    · rw [setNoteOn_notes_apply, if_neg hip]
      exact out_idle _ sine s.time_step (hidle i).1 (hidle i).2 0

def c5note : Note :=
  { frequency := 3
    velocity := 64
    time := 0
    envelope_stage := EnvelopeStage.Off
    next_start_frame := some 0 }

def c5synth : Synthesizer := Synthesizer.new 44100 (fun _ => 220)

theorem scheduled_start_effective_at_frame_witness :
    (c5note.step sineZero 1 0).1 =
      MAX_AMPLITUDE *
        Note.amplitude { c5note with
          envelope_stage :=
            EnvelopeStage.Attack 0 c5note.amplitude c5note.fractional_velocity
          next_start_frame := none } *
        sineZero (c5note.frequency * 1 * (c5note.time : ℚ)) ∧
    (c5note.step sineZero 1 0).2.next_start_frame = none ∧
    (c5note.step sineZero 1 0).2.envelope_stage =
      EnvelopeStage.Attack 1 c5note.amplitude c5note.fractional_velocity ∧
    (c5note.step sineZero 1 0).1 = 0 ∧
    (c5synth.setNoteOn 5 100 0).outputAt sineZero 0 = 0 := by
  have h := scheduled_start_effective_at_frame sineZero 1 c5note 0 rfl
  exact ⟨h.1, h.2.1, h.2.2.1, h.2.2.2.1 rfl,
    h.2.2.2.2 c5synth 5 100 (fun _ => ⟨rfl, rfl⟩)⟩

/-! ## C6: pitch range and the voice-pool indexing -/

def c6synth : Synthesizer := Synthesizer.new 48000 (fun _ => 440)

/-- C6 counterexample: the event `[0x90, 200, 100]` (note-on, pitch byte 200)
is not rejected at the decoding boundary; the pitch reaches the 128-slot
voice-pool indexing and the access is out of range — processing the event
fails (the Rust code panics, embedded as `none`). -/
theorem out_of_range_pitch_counterexample :
    c6synth.handle_midi { bytes := [144, 200, 100], time := 0 } = none := by
  rfl

/-- C6 (amended): `handle_midi` performs no range check on the pitch byte.
For a note-on or note-off event, a pitch byte below 128 always indexes the
pool in bounds (processing succeeds), while a pitch byte of 128 or above
reaches the voice-pool indexing and the access is out of range (processing
fails, a panic). -/
theorem pitch_range_determines_pool_access
    (s : Synthesizer) (status b1 b2 t : Nat)
    (hstatus : status / 16 = 8 ∨ status / 16 = 9) :
    (b1 < 128 →
      ∃ s', s.handle_midi { bytes := [status, b1, b2], time := t } = some s') ∧
    (128 ≤ b1 →
      s.handle_midi { bytes := [status, b1, b2], time := t } = none) := by
  constructor
  · intro hlt
    rcases hstatus with h8 | h9
    · exact ⟨s.setNoteOff ⟨b1, hlt⟩,
        by simp [Synthesizer.handle_midi, h8, Synthesizer.note_off, hlt]⟩
    · have h8' : ¬ status / 16 = 8 := by omega
      exact ⟨s.setNoteOn ⟨b1, hlt⟩ b2 t,
        by simp [Synthesizer.handle_midi, h9, h8', Synthesizer.note_on, hlt]⟩
  · intro hge
    have hnlt : ¬ b1 < 128 := by omega
    rcases hstatus with h8 | h9
    · simp [Synthesizer.handle_midi, h8, Synthesizer.note_off, hnlt]
    · have h8' : ¬ status / 16 = 8 := by omega
      simp [Synthesizer.handle_midi, h9, h8', Synthesizer.note_on, hnlt]

theorem pitch_range_determines_pool_access_witness :
    ((100 : Nat) < 128 →
      ∃ s', c6synth.handle_midi { bytes := [144, 100, 50], time := 0 }
        = some s') ∧
    (128 ≤ (100 : Nat) →
      c6synth.handle_midi { bytes := [144, 100, 50], time := 0 } = none) :=
  pitch_range_determines_pool_access c6synth 144 100 50 0 (Or.inr (by norm_num))

/-! ## C8: unknown status nibbles are ignored -/

def c8synth : Synthesizer := Synthesizer.new 22050 (fun _ => 110)

/-- C8: a 3-byte event whose status high nibble is neither `0b1000` nor
`0b1001` is a no-op: the synthesizer state (all 128 voices) is returned
unchanged and no failure occurs. -/
theorem unknown_status_event_is_noop
    (s : Synthesizer) (status b1 b2 t : Nat)
    (h8 : status / 16 ≠ 8) (h9 : status / 16 ≠ 9) :
    s.handle_midi { bytes := [status, b1, b2], time := t } = some s := by
  simp [Synthesizer.handle_midi, h8, h9]

theorem unknown_status_event_is_noop_witness :
    c8synth.handle_midi { bytes := [160, 60, 50], time := 0 } = some c8synth :=
  unknown_status_event_is_noop c8synth 160 60 50 0 (by norm_num) (by norm_num)

/-! ## C10: handle_midi on messages shorter than 3 bytes -/

def c10synth : Synthesizer := Synthesizer.new 96000 (fun _ => 55)

/-- C10: `handle_midi` reads data bytes 1 and 2 unconditionally before
inspecting the status nibble, so processing any message shorter than 3 bytes
hits an out-of-bounds byte access (a panic, embedded as `none`) — regardless
of whether the message's kind would have been ignored. -/
theorem short_message_out_of_bounds
    (s : Synthesizer) (msg : RawMidi) (h : msg.bytes.length < 3) :
    s.handle_midi msg = none := by
  obtain ⟨bytes, t⟩ := msg
  rcases bytes with _ | ⟨a, _ | ⟨b, _ | ⟨c, rest⟩⟩⟩
  · rfl
  · rfl
  · rfl
  · exfalso
    simp only [RawMidi.bytes, List.length_cons] at h
    omega

/-- The 1-byte system real-time message `0xF8` (an "ignored" kind) still
fails: the unconditional data-byte reads happen first. -/
theorem short_message_out_of_bounds_witness :
    ([(248 : Nat)] : List Nat).length < 3 ∧
    c10synth.handle_midi { bytes := [248], time := 0 } = none :=
  ⟨by decide,
    short_message_out_of_bounds c10synth { bytes := [248], time := 0 }
      (by decide)⟩

/-! ## C9: note-off on an idle voice -/

/-- C9: releasing a voice that is idle (`Off`, no pending start) does not
leave it unchanged: the stage becomes `Release(0, 0)` — a non-`Off`, hence
"active", stage — and for the whole `RELEASE`-sample release span the voice
contributes exactly 0 to the output while its elapsed-samples counter
advances one per frame, after which it returns to `Off`. -/
theorem note_off_on_idle_voice
    (sine : ℚ → ℚ) (ts : ℚ) (n : Note)
    (hoff : n.envelope_stage = EnvelopeStage.Off)
    (hns : n.next_start_frame = none) :
    n.release.envelope_stage = EnvelopeStage.Release 0 0 ∧
    n.release.envelope_stage ≠ EnvelopeStage.Off ∧
    (∀ k, k ≤ RELEASE →
      (n.release.run sine ts k).envelope_stage = EnvelopeStage.Release k 0 ∧
      (n.release.run sine ts k).time = n.time + k ∧
      n.release.out sine ts k = 0) ∧
    (n.release.run sine ts (RELEASE + 1)).envelope_stage =
      EnvelopeStage.Off := by
  have h0 : n.release.envelope_stage = EnvelopeStage.Release 0 0 := by
    show EnvelopeStage.Release 0 n.amplitude = _
    rw [amplitude_off n hoff]
  have key := release_run sine ts n.release 0 h0 hns
  refine ⟨h0, by rw [h0]; simp, ?_, ?_⟩
  · intro k hk
    obtain ⟨h1, h2, h3⟩ := key k hk
    refine ⟨h1, h3, ?_⟩
    show ((n.release.run sine ts k).step sine ts k).1 = 0
    rw [step_active _ sine ts k (by simp [h1]),
      amplitude_release _ k 0 h1]
    ring
  · obtain ⟨h1, h2, _⟩ := key RELEASE le_rfl
    rw [run_succ, step_active _ sine ts RELEASE (by simp [h1]),
      increment_time_release_end _ RELEASE 0 h2 h1]

theorem note_off_on_idle_voice_witness :
    (Note.new 0).release.envelope_stage = EnvelopeStage.Release 0 0 ∧
    ((Note.new 0).release.run sineZero 1 3).envelope_stage =
      EnvelopeStage.Release 3 0 ∧
    ((Note.new 0).release.run sineZero 1 3).time = (Note.new 0).time + 3 ∧
    (Note.new 0).release.out sineZero 1 3 = 0 ∧
    ((Note.new 0).release.run sineZero 1 (RELEASE + 1)).envelope_stage =
      EnvelopeStage.Off := by
  have h := note_off_on_idle_voice sineZero 1 (Note.new 0) rfl rfl
  have h3 := h.2.2.1 3 (by norm_num [RELEASE])
  exact ⟨h.1, h3.1, h3.2.1, h3.2.2, h.2.2.2⟩
